import Mathlib

/-!
Verification development for the pyramid engine in `sol3.py`.

Images are embedded as a height, a width and a pixel function into `ℚ`
(exact arithmetic stands in for IEEE doubles; every identity proved here is
exact, hence holds a fortiori "within tolerance").  The `scipy.ndimage`
separable convolutions are embedded with their default `reflect` boundary
mode and the centring used by `scipy.ndimage.convolve` (centre index
`len(w) / 2` after kernel flipping).  Fallible numpy operations
(elementwise arithmetic on shape-mismatched operands, out-of-range list
indexing) are embedded as `Option`-valued functions: `none` is the python
exception.
-/

namespace Sol3

/-- `MIN_IMG_SIZE = 16` from the source. -/
def MIN_IMG_SIZE : ℕ := 16

/-- A single-channel image: height, width and a pixel function.
Pixels are only meaningful at `i < h`, `j < w`. -/
structure Img where
  h : ℕ
  w : ℕ
  px : ℕ → ℕ → ℚ

/-- Placeholder image used as the default of `List.getD`. -/
def Img0 : Img := ⟨0, 0, fun _ _ => 0⟩

instance : Inhabited Img := ⟨Img0⟩

/-- Extensional equality of images: same shape and same pixels on the
domain. -/
def ImgEq (a b : Img) : Prop :=
  a.h = b.h ∧ a.w = b.w ∧ ∀ i, i < a.h → ∀ j, j < a.w → a.px i j = b.px i j

/-- The constant image of a given shape and value. -/
def constImg (h w : ℕ) (c : ℚ) : Img := ⟨h, w, fun _ _ => c⟩

/-- An image whose pixels all equal `c` on its domain. -/
def ConstOn (im : Img) (c : ℚ) : Prop :=
  ∀ i, i < im.h → ∀ j, j < im.w → im.px i j = c

/-- `scipy.ndimage` `mode='reflect'` index folding: the sample pattern is
`(d c b a | a b c d | d c b a)`, periodic with period `2*n`. -/
def reflectIdx (n : ℕ) (i : ℤ) : ℕ :=
  if i % (2 * (n : ℤ)) < (n : ℤ) then (i % (2 * (n : ℤ))).toNat
  else (2 * (n : ℤ) - 1 - i % (2 * (n : ℤ))).toNat

/-- Horizontal pass of `scipy.ndimage.convolve(im, k)` where `k` is the
row vector of shape `(1, len k)`: flipped kernel, centre `len k / 2`,
reflect boundary.  (The vertical extent of the kernel is 1, so rows are
untouched.) -/
def convRowsR (im : Img) (k : List ℚ) : Img :=
  ⟨im.h, im.w, fun i j =>
    ∑ t ∈ Finset.range k.length,
      k.getD t 0 * im.px i (reflectIdx im.w ((j : ℤ) + ((k.length / 2 : ℕ) : ℤ) - (t : ℤ)))⟩

/-- Vertical pass: `scipy.ndimage.convolve(im, k.T)` with `k.T` of shape
`(len k, 1)`. -/
def convColsR (im : Img) (k : List ℚ) : Img :=
  ⟨im.h, im.w, fun i j =>
    ∑ t ∈ Finset.range k.length,
      k.getD t 0 * im.px (reflectIdx im.h ((i : ℤ) + ((k.length / 2 : ℕ) : ℤ) - (t : ℤ))) j⟩

/-- `reduce`: blur rows then columns with the filter, then take every second
row and column starting at index 0 (`[::2, ::2]`), so the output shape is
`(⌈h/2⌉, ⌈w/2⌉)`. -/
def reduce (im : Img) (blur_filter : List ℚ) : Img :=
  ⟨(im.h + 1) / 2, (im.w + 1) / 2, fun i j =>
    (convColsR (convRowsR im blur_filter) blur_filter).px (2 * i) (2 * j)⟩

/-- The zero-filled `(2h, 2w)` buffer with `im` written into the even rows
and columns (`expanded_image[::2, ::2] = im`). -/
def interleave2 (im : Img) : Img :=
  ⟨im.h * 2, im.w * 2, fun i j =>
    if i % 2 = 0 ∧ j % 2 = 0 then im.px (i / 2) (j / 2) else 0⟩

/-- `expand`: zero-interleave then blur rows and columns with the
doubled-gain filter `2 * blur_filter`.  Output shape is exactly
`(2h, 2w)`; no cropping. -/
def expand (im : Img) (blur_filter : List ℚ) : Img :=
  convColsR (convRowsR (interleave2 im) (blur_filter.map (fun x => 2 * x)))
    (blur_filter.map (fun x => 2 * x))

/-- `scipy.signal.convolve` of two 1-D sequences, full mode:
`out[n] = ∑_{i ≤ n} f[i] * g[n-i]`, length `len f + len g - 1`. -/
def conv1dFull (f g : List ℚ) : List ℚ :=
  (List.range (f.length + g.length - 1)).map fun n =>
    ∑ i ∈ Finset.range f.length, if i ≤ n then f.getD i 0 * g.getD (n - i) 0 else 0

/-- The un-normalized filter row: start from `[1]` and convolve with
`[1, 1]` a given number of times (the source runs the loop
`filter_size - 1` times). -/
def filerRowRaw : ℕ → List ℚ
  | 0 => [1]
  | m + 1 => conv1dFull (filerRowRaw m) [1, 1]

/-- `_get_filer_row`: the binomial row of length `filter_size` divided by
its sum.  The source wraps the result as a numpy row of shape
`(1, filter_size)`; the row/column application of that wrapper is what
`convRowsR` / `convColsR` implement.  Note the source performs no
validation of `filter_size` whatsoever. -/
def get_filer_row (filter_size : ℕ) : List ℚ :=
  (filerRowRaw (filter_size - 1)).map (fun x => x / (filerRowRaw (filter_size - 1)).sum)

/-- The appended levels of the gaussian pyramid: the source loops
`for i in range(max_levels - 1)`, breaking as soon as the last level's
height or width is `≤ MIN_IMG_SIZE`, otherwise appending
`reduce(pyr[-1], filter_vec)`. -/
def gaussLevels (k : List ℚ) : ℕ → Img → List Img
  | 0, _ => []
  | fuel + 1, last =>
    if last.h ≤ MIN_IMG_SIZE ∨ last.w ≤ MIN_IMG_SIZE then []
    else reduce last k :: gaussLevels k fuel (reduce last k)

/-- `build_gaussian_pyramid`: returns `(pyr, filter_vec)` with
`pyr = [im, ...]` grown by `gaussLevels` for `max_levels - 1` rounds. -/
def build_gaussian_pyramid (im : Img) (max_levels filter_size : ℕ) :
    List Img × List ℚ :=
  (im :: gaussLevels (get_filer_row filter_size) (max_levels - 1) im,
    get_filer_row filter_size)

/-- numpy elementwise subtraction.  For the operand shapes that arise in
this file (every dimension is ≥ 2, see the pyramid bounds) numpy
broadcasting succeeds exactly when the shapes are equal, and raises
`ValueError` otherwise; the error is `none`. -/
def npSub (a b : Img) : Option Img :=
  if a.h = b.h ∧ a.w = b.w then
    some ⟨a.h, a.w, fun i j => a.px i j - b.px i j⟩
  else none

/-- numpy elementwise addition, same shape discipline as `npSub`. -/
def npAdd (a b : Img) : Option Img :=
  if a.h = b.h ∧ a.w = b.w then
    some ⟨a.h, a.w, fun i j => a.px i j + b.px i j⟩
  else none

/-- numpy elementwise multiplication, same shape discipline as `npSub`. -/
def npMul (a b : Img) : Option Img :=
  if a.h = b.h ∧ a.w = b.w then
    some ⟨a.h, a.w, fun i j => a.px i j * b.px i j⟩
  else none

/-- Scalar times image (numpy scalar broadcasting, always defined). -/
def scaleImg (c : ℚ) (im : Img) : Img :=
  ⟨im.h, im.w, fun i j => c * im.px i j⟩

/-- Image plus scalar (numpy scalar broadcasting, always defined). -/
def addConstImg (im : Img) (c : ℚ) : Img :=
  ⟨im.h, im.w, fun i j => im.px i j + c⟩

/-- `np.clip(im, 0, 1)`. -/
def clipImg (im : Img) : Img :=
  ⟨im.h, im.w, fun i j => max 0 (min 1 (im.px i j))⟩

/-- The list comprehension
`[gauss_pyr[i] - expand(gauss_pyr[i+1], filter_vec) for i in range(len-1)]`
followed by appending `gauss_pyr[-1]` unchanged.  Each subtraction is the
fallible `npSub` (the source performs no cropping). -/
def lapSubs (fv : List ℚ) : List Img → Option (List Img)
  | [] => some []
  | [g] => some [g]
  | g :: g2 :: rest =>
    (npSub g (expand g2 fv)).bind fun d =>
      (lapSubs fv (g2 :: rest)).map fun tl => d :: tl

/-- `build_laplacian_pyramid`: build the gaussian pyramid, then the level
differences; `none` is the broadcasting `ValueError` raised when a level
shape does not match the expanded next level. -/
def build_laplacian_pyramid (im : Img) (max_levels filter_size : ℕ) :
    Option (List Img × List ℚ) :=
  (lapSubs (build_gaussian_pyramid im max_levels filter_size).2
      (build_gaussian_pyramid im max_levels filter_size).1).map
    fun l => (l, (build_gaussian_pyramid im max_levels filter_size).2)

/-- The recursive helper `_get_gauss(n)` of `laplacian_to_image`, with an
explicit fuel bounding the recursion depth (the python recursion performs
one self-call per level, so depth `len(lpyr)` from `n = 0`; every list
access out of range is an `IndexError`, i.e. `none`). -/
def getGaussF : ℕ → List Img → List ℚ → List ℚ → ℕ → Option Img
  | 0, _, _, _, _ => none
  | fuel + 1, lpyr, fv, coeff, n =>
    if n + 1 = lpyr.length then
      (lpyr.get? n).bind fun l => (coeff.get? n).map fun c => scaleImg c l
    else if n < lpyr.length then
      (lpyr.get? n).bind fun l => (coeff.get? n).bind fun c =>
        (getGaussF fuel lpyr fv coeff (n + 1)).bind fun g =>
          npAdd (scaleImg c l) (expand g fv)
    else none

/-- `laplacian_to_image(lpyr, filter_vec, coeff) = _get_gauss(0)`. -/
def laplacian_to_image (lpyr : List Img) (filter_vec coeff : List ℚ) :
    Option Img :=
  getGaussF lpyr.length lpyr filter_vec coeff 0

/-- All pixels of an image, row major (`im.min()` / `im.max()` range over
exactly these). -/
def pxList (im : Img) : List ℚ :=
  (List.range im.h).flatMap fun i => (List.range im.w).map fun j => im.px i j

/-- `im.min()` over a nonempty image (the fold seed `px 0 0` is itself a
pixel whenever `h ≥ 1` and `w ≥ 1`, which the theorems assume; numpy
raises on an empty array). -/
def imgMin (im : Img) : ℚ := (pxList im).foldl min (im.px 0 0)

/-- `im.max()`, same conventions as `imgMin`. -/
def imgMax (im : Img) : ℚ := (pxList im).foldl max (im.px 0 0)

/-- `_stretch_image(im) = (im - im.min()) / (im.max() - im.min())`, with no
guard on the divisor. -/
def stretch_image (im : Img) : Img :=
  ⟨im.h, im.w, fun i j => (im.px i j - imgMin im) / (imgMax im - imgMin im)⟩

/-- One blended level
`gm[i] * l1[i] + ((-1 * gm[i]) + 1) * l2[i]`, with every list access
and every elementwise operation fallible. -/
def blendAt (gm l1 l2 : List Img) (i : ℕ) : Option Img :=
  (gm.get? i).bind fun g => (l1.get? i).bind fun a => (l2.get? i).bind fun b =>
    (npMul g a).bind fun x =>
      (npMul (addConstImg (scaleImg (-1) g) 1) b).bind fun y => npAdd x y

/-- Evaluate a python list comprehension of fallible elements: the first
exception aborts the whole list. -/
def seqOpt : List (Option Img) → Option (List Img)
  | [] => some []
  | o :: rest => o.bind fun x => (seqOpt rest).map fun xs => x :: xs

/-- `pyramid_blending`: laplacian pyramids of both images with
`filter_size_im`, gaussian pyramid of the (float-cast) mask with
`filter_size_mask`, the blended levels, reconstruction with coefficients
`[1] * max_levels` (note: `max_levels`, not the pyramid length), and the
final clip to `[0, 1]`.  The mask argument is the image after the
source's `mask.astype(np.float64)` cast (`True ↦ 1.0`, `False ↦ 0.0`). -/
def pyramid_blending (im1 im2 mask : Img)
    (max_levels filter_size_im filter_size_mask : ℕ) : Option Img :=
  (build_laplacian_pyramid im1 max_levels filter_size_im).bind fun p1 =>
  (build_laplacian_pyramid im2 max_levels filter_size_im).bind fun p2 =>
  (seqOpt ((List.range p1.1.length).map
      (blendAt (build_gaussian_pyramid mask max_levels filter_size_mask).1
        p1.1 p2.1))).bind fun outLap =>
  (laplacian_to_image outLap p2.2 (List.replicate max_levels 1)).map clipImg

/-- Decidable check that every gaussian level except possibly the last has
even height and width (the exact condition under which
`expand(G[i+1])` has the shape of `G[i]`). -/
def chainEvenB : List Img → Bool
  | [] => true
  | [_] => true
  | g :: g2 :: rest =>
    (g.h % 2 == 0 && g.w % 2 == 0) && chainEvenB (g2 :: rest)

/-! ### Basic facts -/

theorem ImgEq.refl (a : Img) : ImgEq a a := ⟨rfl, rfl, fun _ _ _ _ => rfl⟩

theorem ImgEq.symm' {a b : Img} (h : ImgEq a b) : ImgEq b a :=
  ⟨h.1.symm, h.2.1.symm, fun i hi j hj =>
    (h.2.2 i (h.1 ▸ hi) j (h.2.1 ▸ hj)).symm⟩

theorem ImgEq.trans' {a b c : Img} (h1 : ImgEq a b) (h2 : ImgEq b c) : ImgEq a c :=
  ⟨h1.1.trans h2.1, h1.2.1.trans h2.2.1, fun i hi j hj =>
    (h1.2.2 i hi j hj).trans (h2.2.2 i (h1.1 ▸ hi) j (h1.2.1 ▸ hj))⟩

theorem reflectIdx_lt (n : ℕ) (hn : 1 ≤ n) (i : ℤ) : reflectIdx n i < n := by
  have hn' : (1 : ℤ) ≤ (n : ℤ) := by exact_mod_cast hn
  have h2 : (0 : ℤ) < 2 * (n : ℤ) := by omega
  have h0 : 0 ≤ i % (2 * (n : ℤ)) := Int.emod_nonneg i (by omega)
  have h1 : i % (2 * (n : ℤ)) < 2 * (n : ℤ) := Int.emod_lt_of_pos i h2
  unfold reflectIdx
  split <;> omega

theorem sum_range_getD (k : List ℚ) :
    (∑ t ∈ Finset.range k.length, k.getD t 0) = k.sum := by
  induction k with
  | nil => simp
  | cons a t ih =>
    rw [List.length_cons, Finset.sum_range_succ']
    simp only [List.getD_cons_succ, List.getD_cons_zero, List.sum_cons]
    rw [ih]; ring

theorem conv1dFull_length (f g : List ℚ) :
    (conv1dFull f g).length = f.length + g.length - 1 := by
  simp [conv1dFull]

theorem filerRowRaw_length (n : ℕ) : (filerRowRaw n).length = n + 1 := by
  induction n with
  | zero => rfl
  | succ m ih => rw [filerRowRaw, conv1dFull_length, ih]; simp

theorem base_getD_nonneg (v : ℕ) : 0 ≤ ([1, 1] : List ℚ).getD v 0 := by
  rcases v with _ | _ | v <;> simp [List.getD]

theorem filerRowRaw_pos (n : ℕ) : ∀ x ∈ filerRowRaw n, 0 < x := by
  induction n with
  | zero => intro x hx; simp [filerRowRaw] at hx; simp [hx]
  | succ m ih =>
    intro x hx
    have hlen := filerRowRaw_length m
    have hgetD : ∀ i, i < (filerRowRaw m).length → 0 < (filerRowRaw m).getD i 0 := by
      intro i hi
      rw [List.getD_eq_getElem _ _ hi]
      exact ih _ (List.getElem_mem hi)
    rw [filerRowRaw, conv1dFull] at hx
    simp only [List.mem_map, List.mem_range] at hx
    obtain ⟨mIdx, hm, rfl⟩ := hx
    apply Finset.sum_pos'
    · intro i hi
      split
      · exact mul_nonneg (le_of_lt (hgetD i (Finset.mem_range.mp hi))) (base_getD_nonneg _)
      · exact le_rfl
    · by_cases hcase : mIdx < (filerRowRaw m).length
      · refine ⟨mIdx, Finset.mem_range.mpr hcase, ?_⟩
        rw [if_pos le_rfl]
        have : ([1, 1] : List ℚ).getD (mIdx - mIdx) 0 = 1 := by simp [List.getD]
        rw [this, mul_one]
        exact hgetD mIdx hcase
      · have hm1 : mIdx = (filerRowRaw m).length := by
          simp only [List.length_cons, List.length_nil] at hm
          omega
        have hlpos : 1 ≤ (filerRowRaw m).length := by rw [hlen]; omega
        refine ⟨mIdx - 1, Finset.mem_range.mpr (by omega), ?_⟩
        rw [if_pos (by omega)]
        have : mIdx - (mIdx - 1) = 1 := by omega
        rw [this]
        have h11 : ([1, 1] : List ℚ).getD 1 0 = 1 := by simp [List.getD]
        rw [h11, mul_one]
        exact hgetD (mIdx - 1) (by omega)

theorem filerRowRaw_sum_pos (n : ℕ) : 0 < (filerRowRaw n).sum := by
  apply List.sum_pos _ (filerRowRaw_pos n)
  have := filerRowRaw_length n
  intro hnil
  rw [hnil] at this
  simp at this

theorem get_filer_row_length (fs : ℕ) (h : 1 ≤ fs) :
    (get_filer_row fs).length = fs := by
  simp [get_filer_row, filerRowRaw_length]
  omega

theorem get_filer_row_sum (fs : ℕ) : (get_filer_row fs).sum = 1 := by
  have hs := filerRowRaw_sum_pos (fs - 1)
  unfold get_filer_row
  simp only [div_eq_mul_inv]
  have := List.sum_map_mul_right (filerRowRaw (fs - 1)) id ((filerRowRaw (fs - 1)).sum)⁻¹
  simp only [id_eq, List.map_id] at this
  rw [this]
  exact mul_inv_cancel₀ (ne_of_gt hs)

theorem get_filer_row_sumRange (fs : ℕ) :
    (∑ t ∈ Finset.range (get_filer_row fs).length, (get_filer_row fs).getD t 0) = 1 := by
  rw [sum_range_getD, get_filer_row_sum]

/-! ### Congruence: the separable blurs read pixels only inside the
domain (through `reflectIdx`), so extensionally equal images blur to
extensionally equal images. -/

theorem convRowsR_congr {a b : Img} (k : List ℚ) (hab : ImgEq a b) :
    ImgEq (convRowsR a k) (convRowsR b k) := by
  obtain ⟨hh, hw, hp⟩ := hab
  refine ⟨hh, hw, ?_⟩
  intro i hi j hj
  simp only [convRowsR] at hi hj ⊢
  refine Finset.sum_congr rfl ?_
  intro t _
  rw [hw]
  congr 1
  exact hp i hi _ (hw ▸ reflectIdx_lt b.w (by omega) _)

theorem convColsR_congr {a b : Img} (k : List ℚ) (hab : ImgEq a b) :
    ImgEq (convColsR a k) (convColsR b k) := by
  obtain ⟨hh, hw, hp⟩ := hab
  refine ⟨hh, hw, ?_⟩
  intro i hi j hj
  simp only [convColsR] at hi hj ⊢
  refine Finset.sum_congr rfl ?_
  intro t _
  rw [hh]
  congr 1
  exact hp _ (hh ▸ reflectIdx_lt b.h (by omega) _) j hj

theorem interleave2_congr {a b : Img} (hab : ImgEq a b) :
    ImgEq (interleave2 a) (interleave2 b) := by
  obtain ⟨hh, hw, hp⟩ := hab
  refine ⟨by simp [interleave2, hh], by simp [interleave2, hw], ?_⟩
  intro i hi j hj
  simp only [interleave2] at hi hj ⊢
  split
  · exact hp _ (by omega) _ (by omega)
  · rfl

theorem expand_congr {a b : Img} (k : List ℚ) (hab : ImgEq a b) :
    ImgEq (expand a k) (expand b k) :=
  convColsR_congr _ (convRowsR_congr _ (interleave2_congr hab))

/-! ### Constant images are preserved by blurring with a kernel of sum 1
(reflect boundary reads stay inside the domain). -/

theorem convRowsR_constOn {im : Img} {c : ℚ} (k : List ℚ) (hc : ConstOn im c) :
    ConstOn (convRowsR im k) ((∑ t ∈ Finset.range k.length, k.getD t 0) * c) := by
  intro i hi j hj
  simp only [convRowsR] at hi hj ⊢
  rw [Finset.sum_mul]
  refine Finset.sum_congr rfl ?_
  intro t _
  congr 1
  exact hc i hi _ (reflectIdx_lt im.w (by omega) _)

theorem convColsR_constOn {im : Img} {c : ℚ} (k : List ℚ) (hc : ConstOn im c) :
    ConstOn (convColsR im k) ((∑ t ∈ Finset.range k.length, k.getD t 0) * c) := by
  intro i hi j hj
  simp only [convColsR] at hi hj ⊢
  rw [Finset.sum_mul]
  refine Finset.sum_congr rfl ?_
  intro t _
  congr 1
  exact hc _ (reflectIdx_lt im.h (by omega) _) j hj

theorem reduce_constOn {im : Img} {c : ℚ} (k : List ℚ)
    (hk : (∑ t ∈ Finset.range k.length, k.getD t 0) = 1) (hc : ConstOn im c) :
    ConstOn (reduce im k) c := by
  intro i hi j hj
  have h1 : ConstOn (convRowsR im k) c := by
    have := convRowsR_constOn k hc
    rwa [hk, one_mul] at this
  have h2 : ConstOn (convColsR (convRowsR im k) k) c := by
    have := convColsR_constOn k h1
    rwa [hk, one_mul] at this
  simp only [reduce] at hi hj ⊢
  have hii : 2 * i < im.h := by omega
  have hjj : 2 * j < im.w := by omega
  exact h2 (2 * i) hii (2 * j) hjj

theorem gaussLevels_constOn (k : List ℚ)
    (hk : (∑ t ∈ Finset.range k.length, k.getD t 0) = 1) (c : ℚ) :
    ∀ fuel (last : Img), ConstOn last c →
      ∀ x ∈ gaussLevels k fuel last, ConstOn x c := by
  intro fuel
  induction fuel with
  | zero => intro last _ x hx; simp [gaussLevels] at hx
  | succ m ih =>
    intro last hlast x hx
    rw [gaussLevels] at hx
    split at hx
    · simp at hx
    · rcases List.mem_cons.mp hx with h | h
      · subst h; exact reduce_constOn k hk hlast
      · exact ih (reduce last k) (reduce_constOn k hk hlast) x h

/-! ### Shape characterizations of the fallible numpy operations -/

theorem npSub_eq_some {a b d : Img} (h : npSub a b = some d) :
    a.h = b.h ∧ a.w = b.w ∧ d.h = a.h ∧ d.w = a.w ∧
      ∀ i j, d.px i j = a.px i j - b.px i j := by
  unfold npSub at h
  split at h
  · rename_i hc
    injection h with h'
    subst h'
    exact ⟨hc.1, hc.2, rfl, rfl, fun _ _ => rfl⟩
  · simp at h

theorem npAdd_eq_some {a b d : Img} (h : npAdd a b = some d) :
    a.h = b.h ∧ a.w = b.w ∧ d.h = a.h ∧ d.w = a.w ∧
      ∀ i j, d.px i j = a.px i j + b.px i j := by
  unfold npAdd at h
  split at h
  · rename_i hc
    injection h with h'
    subst h'
    exact ⟨hc.1, hc.2, rfl, rfl, fun _ _ => rfl⟩
  · simp at h

theorem npMul_eq_some {a b d : Img} (h : npMul a b = some d) :
    a.h = b.h ∧ a.w = b.w ∧ d.h = a.h ∧ d.w = a.w ∧
      ∀ i j, d.px i j = a.px i j * b.px i j := by
  unfold npMul at h
  split at h
  · rename_i hc
    injection h with h'
    subst h'
    exact ⟨hc.1, hc.2, rfl, rfl, fun _ _ => rfl⟩
  · simp at h

theorem npSub_some (a b : Img) (hh : a.h = b.h) (hw : a.w = b.w) :
    npSub a b = some ⟨a.h, a.w, fun i j => a.px i j - b.px i j⟩ := by
  unfold npSub
  rw [if_pos ⟨hh, hw⟩]

theorem npAdd_some (a b : Img) (hh : a.h = b.h) (hw : a.w = b.w) :
    npAdd a b = some ⟨a.h, a.w, fun i j => a.px i j + b.px i j⟩ := by
  unfold npAdd
  rw [if_pos ⟨hh, hw⟩]

theorem npMul_some (a b : Img) (hh : a.h = b.h) (hw : a.w = b.w) :
    npMul a b = some ⟨a.h, a.w, fun i j => a.px i j * b.px i j⟩ := by
  unfold npMul
  rw [if_pos ⟨hh, hw⟩]

/-! ### Structure of `gaussLevels` -/

theorem gaussLevels_length_le (k : List ℚ) :
    ∀ fuel (last : Img), (gaussLevels k fuel last).length ≤ fuel := by
  intro fuel
  induction fuel with
  | zero => intro last; simp [gaussLevels]
  | succ m ih =>
    intro last
    rw [gaussLevels]
    split
    · simp
    · simp only [List.length_cons]
      exact Nat.succ_le_succ (ih _)

theorem gaussChain_getD (k : List ℚ) :
    ∀ fuel (last : Img) n, n + 1 < (last :: gaussLevels k fuel last).length →
      (last :: gaussLevels k fuel last).getD (n + 1) Img0 =
          reduce ((last :: gaussLevels k fuel last).getD n Img0) k ∧
        MIN_IMG_SIZE < ((last :: gaussLevels k fuel last).getD n Img0).h ∧
        MIN_IMG_SIZE < ((last :: gaussLevels k fuel last).getD n Img0).w := by
  intro fuel
  induction fuel with
  | zero =>
    intro last n h
    simp [gaussLevels] at h
  | succ m ih =>
    intro last n h
    rw [gaussLevels] at h ⊢
    by_cases hstop : last.h ≤ MIN_IMG_SIZE ∨ last.w ≤ MIN_IMG_SIZE
    · rw [if_pos hstop] at h
      simp at h
    · rw [if_neg hstop] at h ⊢
      push_neg at hstop
      cases n with
      | zero => exact ⟨rfl, hstop.1, hstop.2⟩
      | succ n2 =>
        have h2 : n2 + 1 < ((reduce last k) :: gaussLevels k m (reduce last k)).length := by
          simp only [List.length_cons] at h ⊢
          omega
        have := ih (reduce last k) n2 h2
        simpa [List.getD_cons_succ] using this

/-- The per-level shape pair of an image. -/
def dimsOf (im : Img) : ℕ × ℕ := (im.h, im.w)

theorem gaussLevels_dims_par (k k2 : List ℚ) :
    ∀ fuel (a b : Img), a.h = b.h → a.w = b.w →
      (gaussLevels k fuel a).map dimsOf = (gaussLevels k2 fuel b).map dimsOf := by
  intro fuel
  induction fuel with
  | zero => intro a b _ _; simp [gaussLevels]
  | succ m ih =>
    intro a b hh hw
    rw [gaussLevels, gaussLevels]
    by_cases hstop : a.h ≤ MIN_IMG_SIZE ∨ a.w ≤ MIN_IMG_SIZE
    · rw [if_pos hstop, if_pos (by rw [← hh, ← hw]; exact hstop)]
    · rw [if_neg hstop, if_neg (by rw [← hh, ← hw]; exact hstop)]
      simp only [List.map_cons]
      rw [ih (reduce a k) (reduce b k2) (by simp [reduce, hh]) (by simp [reduce, hw])]
      congr 1
      simp [dimsOf, reduce, hh, hw]

theorem chainEvenB_dims : ∀ (l1 l2 : List Img),
    l1.map dimsOf = l2.map dimsOf → chainEvenB l1 = chainEvenB l2 := by
  intro l1
  induction l1 with
  | nil =>
    intro l2 h
    cases l2 with
    | nil => rfl
    | cons b t2 => simp at h
  | cons a t ih =>
    intro l2 h
    cases l2 with
    | nil => simp at h
    | cons b t2 =>
      simp only [List.map_cons, List.cons.injEq] at h
      obtain ⟨hab, ht⟩ := h
      have h1 : a.h = b.h := congrArg Prod.fst hab
      have h2 : a.w = b.w := congrArg Prod.snd hab
      cases t with
      | nil =>
        cases t2 with
        | nil => rfl
        | cons b2 t4 => simp at ht
      | cons a2 t3 =>
        cases t2 with
        | nil => simp at ht
        | cons b2 t4 =>
          rw [chainEvenB, chainEvenB, ih (b2 :: t4) ht, h1, h2]

/-! ### Structure of `lapSubs` -/

theorem lapSubs_cons_eq {fv : List ℚ} {g g2 : Img} {rest lap : List Img}
    (h : lapSubs fv (g :: g2 :: rest) = some lap) :
    ∃ d tl, npSub g (expand g2 fv) = some d ∧
      lapSubs fv (g2 :: rest) = some tl ∧ lap = d :: tl := by
  rw [lapSubs] at h
  rcases hd : npSub g (expand g2 fv) with _ | d
  · rw [hd] at h; simp at h
  · rw [hd] at h
    rcases ht : lapSubs fv (g2 :: rest) with _ | tl
    · rw [ht] at h; simp at h
    · rw [ht] at h
      simp only [Option.bind_eq_bind, Option.some_bind, Option.map_some', Option.some.injEq] at h
      exact ⟨d, tl, rfl, rfl, h.symm⟩

theorem lapSubs_length (fv : List ℚ) :
    ∀ (g lap : List Img), lapSubs fv g = some lap → lap.length = g.length := by
  intro g
  induction g with
  | nil => intro lap h; rw [lapSubs] at h; injection h with h'; rw [← h']
  | cons a t ih =>
    cases t with
    | nil =>
      intro lap h
      rw [lapSubs] at h
      injection h with h'
      rw [← h']
    | cons b t2 =>
      intro lap h
      obtain ⟨d, tl, _, htl, rfl⟩ := lapSubs_cons_eq h
      simp only [List.length_cons]
      rw [ih tl htl]
      simp

theorem lapSubs_dims (fv : List ℚ) :
    ∀ (g lap : List Img), lapSubs fv g = some lap →
      lap.map dimsOf = g.map dimsOf := by
  intro g
  induction g with
  | nil => intro lap h; rw [lapSubs] at h; injection h with h'; rw [← h']
  | cons a t ih =>
    cases t with
    | nil =>
      intro lap h
      rw [lapSubs] at h
      injection h with h'
      rw [← h']
    | cons b t2 =>
      intro lap h
      obtain ⟨d, tl, hd, htl, rfl⟩ := lapSubs_cons_eq h
      obtain ⟨_, _, hdh, hdw, _⟩ := npSub_eq_some hd
      simp only [List.map_cons]
      rw [ih tl htl]
      congr 1
      simp [dimsOf, hdh, hdw]

theorem lapSubs_getD (fv : List ℚ) :
    ∀ (g lap : List Img), lapSubs fv g = some lap →
      (∀ n, n + 1 < g.length →
        (lap.getD n Img0).h = (g.getD n Img0).h ∧
        (lap.getD n Img0).w = (g.getD n Img0).w ∧
        ∀ i j, (lap.getD n Img0).px i j =
          (g.getD n Img0).px i j - (expand (g.getD (n + 1) Img0) fv).px i j) ∧
      lap.getD (g.length - 1) Img0 = g.getD (g.length - 1) Img0 := by
  intro g
  induction g with
  | nil =>
    intro lap h
    rw [lapSubs] at h
    injection h with h'
    rw [← h']
    exact ⟨fun n hn => by simp at hn, rfl⟩
  | cons a t ih =>
    cases t with
    | nil =>
      intro lap h
      rw [lapSubs] at h
      injection h with h'
      rw [← h']
      refine ⟨fun n hn => by simp at hn, rfl⟩
    | cons b t2 =>
      intro lap h
      obtain ⟨d, tl, hd, htl, rfl⟩ := lapSubs_cons_eq h
      obtain ⟨_, _, hdh, hdw, hdpx⟩ := npSub_eq_some hd
      obtain ⟨ihn, ihlast⟩ := ih tl htl
      constructor
      · intro n hn
        cases n with
        | zero => exact ⟨hdh, hdw, hdpx⟩
        | succ n2 =>
          have hn2 : n2 + 1 < (b :: t2).length := by
            simp only [List.length_cons] at hn ⊢
            omega
          simpa [List.getD_cons_succ] using ihn n2 hn2
      · have hlen : (a :: b :: t2).length - 1 = ((b :: t2).length - 1) + 1 := by
          simp only [List.length_cons]
          omega
        rw [hlen]
        simpa [List.getD_cons_succ] using ihlast

theorem lapSubs_isSome (k fv : List ℚ) :
    ∀ fuel (last : Img), chainEvenB (last :: gaussLevels k fuel last) = true →
      ∃ lap, lapSubs fv (last :: gaussLevels k fuel last) = some lap := by
  intro fuel
  induction fuel with
  | zero => intro last _; exact ⟨[last], by rw [gaussLevels, lapSubs]⟩
  | succ m ih =>
    intro last hch
    rw [gaussLevels] at hch ⊢
    by_cases hstop : last.h ≤ MIN_IMG_SIZE ∨ last.w ≤ MIN_IMG_SIZE
    · rw [if_pos hstop] at hch ⊢
      exact ⟨[last], by rw [lapSubs]⟩
    · rw [if_neg hstop] at hch ⊢
      rw [chainEvenB] at hch
      simp only [Bool.and_eq_true, beq_iff_eq] at hch
      obtain ⟨⟨heh, hew⟩, hch2⟩ := hch
      obtain ⟨tl, htl⟩ := ih (reduce last k) (by
        simpa only [Bool.and_eq_true, beq_iff_eq] using hch2)
      have hsub : npSub last (expand (reduce last k) fv) =
          some ⟨last.h, last.w, fun i j =>
            last.px i j - (expand (reduce last k) fv).px i j⟩ := by
        apply npSub_some
        · show last.h = (reduce last k).h * 2
          simp only [reduce]
          omega
        · show last.w = (reduce last k).w * 2
          simp only [reduce]
          omega
      refine ⟨(⟨last.h, last.w, fun i j =>
        last.px i j - (expand (reduce last k) fv).px i j⟩ : Img) :: tl, ?_⟩
      rw [lapSubs, hsub, htl]
      rfl

/-! ### Behaviour of the reconstruction recursion -/

theorem getGaussF_succ (f : ℕ) (L : List Img) (fv c : List ℚ) (n : ℕ) :
    getGaussF (f + 1) L fv c n =
      if n + 1 = L.length then
        (L.get? n).bind fun l => (c.get? n).map fun c0 => scaleImg c0 l
      else if n < L.length then
        (L.get? n).bind fun l => (c.get? n).bind fun c0 =>
          (getGaussF f L fv c (n + 1)).bind fun g => npAdd (scaleImg c0 l) (expand g fv)
      else none := rfl

theorem getGaussF_oob (L : List Img) (fv c : List ℚ) :
    ∀ f n, L.length ≤ n → getGaussF f L fv c n = none := by
  intro f n h
  cases f with
  | zero => rfl
  | succ m =>
    simp only [getGaussF]
    rw [if_neg (by omega : ¬(n + 1 = L.length)), if_neg (by omega : ¬(n < L.length))]

theorem getGaussF_fuel_agree :
    ∀ (f1 : ℕ) (L : List Img) (fv c : List ℚ) (n f2 : ℕ),
      L.length - n ≤ f1 → L.length - n ≤ f2 →
      getGaussF f1 L fv c n = getGaussF f2 L fv c n := by
  intro f1
  induction f1 with
  | zero =>
    intro L fv c n f2 h1 _
    have hn : L.length ≤ n := by omega
    rw [getGaussF_oob L fv c 0 n hn, getGaussF_oob L fv c f2 n hn]
  | succ m ih =>
    intro L fv c n f2 h1 h2
    by_cases hn : L.length ≤ n
    · rw [getGaussF_oob L fv c _ n hn, getGaussF_oob L fv c f2 n hn]
    · push_neg at hn
      cases f2 with
      | zero => omega
      | succ m2 =>
        simp only [getGaussF]
        by_cases hb : n + 1 = L.length
        · rw [if_pos hb, if_pos hb]
        · rw [if_neg hb, if_neg hb, if_pos hn, if_pos hn]
          have heq := ih L fv c (n + 1) m2 (by omega) (by omega)
          simp only [heq]

theorem getGaussF_cons (x : Img) (fv : List ℚ) (c0 : ℚ) :
    ∀ (fuel : ℕ) (L : List Img) (C : List ℚ) (n : ℕ), L.length - n ≤ fuel →
      getGaussF (fuel + 1) (x :: L) fv (c0 :: C) (n + 1) = getGaussF fuel L fv C n := by
  intro fuel
  induction fuel with
  | zero =>
    intro L C n h
    have hL : (x :: L).length ≤ n + 1 := by
      simp only [List.length_cons]
      omega
    rw [getGaussF_oob (x :: L) fv (c0 :: C) 1 (n + 1) hL]
    rfl
  | succ m ih =>
    intro L C n h
    rw [getGaussF_succ (m + 1) (x :: L) fv (c0 :: C) (n + 1), getGaussF_succ m L fv C n]
    simp only [List.length_cons, List.get?_cons_succ]
    by_cases hb : n + 1 = L.length
    · rw [if_pos (by omega : n + 1 + 1 = L.length + 1), if_pos hb]
    · rw [if_neg (by omega : ¬(n + 1 + 1 = L.length + 1)), if_neg hb]
      by_cases hlt : n < L.length
      · rw [if_pos (by omega : n + 1 < L.length + 1), if_pos hlt]
        have heq := ih L C (n + 1) (by omega)
        simp only [heq]
      · rw [if_neg (by omega : ¬(n + 1 < L.length + 1)), if_neg hlt]

theorem getGaussF_short :
    ∀ (fuel : ℕ) (L : List Img) (fv c : List ℚ) (n : ℕ),
      n < L.length → c.length < L.length → n ≤ c.length →
      getGaussF fuel L fv c n = none := by
  intro fuel
  induction fuel with
  | zero => intro L fv c n _ _ _; rfl
  | succ m ih =>
    intro L fv c n hn hc hnc
    simp only [getGaussF]
    by_cases hb : n + 1 = L.length
    · rw [if_pos hb]
      have hcn : c.get? n = none := by
        rw [List.get?_eq_none]
        omega
      simp only [hcn]
      cases L.get? n <;> rfl
    · rw [if_neg hb, if_pos hn]
      by_cases hceq : n = c.length
      · have hcn : c.get? n = none := by
          rw [List.get?_eq_none]
          omega
        simp only [hcn]
        cases L.get? n <;> rfl
      · have hrec := ih L fv c (n + 1) (by omega) hc (by omega)
        simp only [hrec]
        cases L.get? n with
        | none => rfl
        | some l =>
          cases c.get? n <;> rfl

theorem getGaussF_coeff_agree :
    ∀ (fuel : ℕ) (L : List Img) (fv c1 c2 : List ℚ) (n : ℕ),
      (∀ m, m < L.length → c1.get? m = c2.get? m) →
      getGaussF fuel L fv c1 n = getGaussF fuel L fv c2 n := by
  intro fuel
  induction fuel with
  | zero => intro L fv c1 c2 n _; rfl
  | succ m ih =>
    intro L fv c1 c2 n hagree
    simp only [getGaussF]
    by_cases hb : n + 1 = L.length
    · rw [if_pos hb, if_pos hb]
      have := hagree n (by omega)
      simp only [this]
    · rw [if_neg hb, if_neg hb]
      by_cases hlt : n < L.length
      · rw [if_pos hlt, if_pos hlt]
        have h1 := hagree n hlt
        have h2 := ih L fv c1 c2 (n + 1) hagree
        simp only [h1, h2]
      · rw [if_neg hlt, if_neg hlt]

theorem scaleImg_congr {a b : Img} (c : ℚ) (h : ImgEq a b) :
    ImgEq (scaleImg c a) (scaleImg c b) :=
  ⟨h.1, h.2.1, fun i hi j hj => by
    simp only [scaleImg]
    rw [h.2.2 i hi j hj]⟩

theorem npAdd_none (a b : Img) (h : ¬(a.h = b.h ∧ a.w = b.w)) : npAdd a b = none := by
  unfold npAdd
  rw [if_neg h]

/-- The round trip at the heart of the laplacian pyramid: reconstructing
(with unit coefficients) a pyramid produced by `lapSubs` returns the head
of the gaussian chain exactly. -/
theorem roundTrip (fv : List ℚ) :
    ∀ (rest : List Img) (x : Img) (lap : List Img), lapSubs fv (x :: rest) = some lap →
      ∃ out, laplacian_to_image lap fv (List.replicate lap.length 1) = some out ∧
        ImgEq out x := by
  intro rest
  induction rest with
  | nil =>
    intro x lap h
    rw [lapSubs] at h
    injection h with h'
    subst h'
    exact ⟨scaleImg 1 x, rfl, ⟨rfl, rfl, fun i _ j _ => one_mul _⟩⟩
  | cons y rest2 ih =>
    intro x lap h
    obtain ⟨d, tl, hd, htl, rfl⟩ := lapSubs_cons_eq h
    obtain ⟨hxh, hxw, hdh, hdw, hdpx⟩ := npSub_eq_some hd
    obtain ⟨out2, hout2, hout2eq⟩ := ih y tl htl
    have htlen : 1 ≤ tl.length := by
      have := lapSubs_length fv (y :: rest2) tl htl
      simp only [List.length_cons] at this
      omega
    have hexh : (expand out2 fv).h = x.h := by
      show out2.h * 2 = x.h
      rw [hout2eq.1, hxh]
      rfl
    have hexw : (expand out2 fv).w = x.w := by
      show out2.w * 2 = x.w
      rw [hout2eq.2.1, hxw]
      rfl
    have hrec : getGaussF tl.length (d :: tl) fv (1 :: List.replicate tl.length 1) 1 =
        some out2 := by
      rw [getGaussF_fuel_agree tl.length (d :: tl) fv (1 :: List.replicate tl.length 1) 1
        (tl.length + 1) (by simp only [List.length_cons]; omega)
        (by simp only [List.length_cons]; omega)]
      rw [getGaussF_cons d fv 1 tl.length tl (List.replicate tl.length 1) 0 (by omega)]
      exact hout2
    refine ⟨⟨(scaleImg 1 d).h, (scaleImg 1 d).w,
      fun i j => (scaleImg 1 d).px i j + (expand out2 fv).px i j⟩, ?_, ?_⟩
    · show getGaussF (d :: tl).length (d :: tl) fv (List.replicate (d :: tl).length 1) 0 = _
      simp only [List.length_cons, List.replicate_succ]
      simp only [getGaussF, List.length_cons]
      rw [if_neg (by omega : ¬(0 + 1 = tl.length + 1)),
        if_pos (by omega : 0 < tl.length + 1)]
      simp only [List.get?_cons_zero, Option.some_bind, hrec]
      exact npAdd_some (scaleImg 1 d) (expand out2 fv)
        (by show d.h = (expand out2 fv).h; rw [hdh, hexh])
        (by show d.w = (expand out2 fv).w; rw [hdw, hexw])
    · refine ⟨hdh, hdw, ?_⟩
      intro i hi j hj
      have hix : i < x.h := hdh ▸ hi
      have hjx : j < x.w := hdw ▸ hj
      show 1 * d.px i j + (expand out2 fv).px i j = x.px i j
      rw [one_mul, hdpx i j]
      have hiE : i < (expand out2 fv).h := by rw [hexh]; exact hix
      have hjE : j < (expand out2 fv).w := by rw [hexw]; exact hjx
      rw [(expand_congr fv hout2eq).2.2 i hiE j hjE]
      ring

/-- Levelwise extensional equality of two image lists. -/
def ImgsEq : List Img → List Img → Prop
  | [], [] => True
  | a :: as, b :: bs => ImgEq a b ∧ ImgsEq as bs
  | _, _ => False

/-- `Option`-lifted extensional equality: both fail, or both succeed with
extensionally equal images. -/
def OptImgEq : Option Img → Option Img → Prop
  | none, none => True
  | some a, some b => ImgEq a b
  | _, _ => False

theorem ImgsEq_length : ∀ (l1 l2 : List Img), ImgsEq l1 l2 → l1.length = l2.length := by
  intro l1
  induction l1 with
  | nil =>
    intro l2 h
    cases l2 with
    | nil => rfl
    | cons b bs => exact False.elim h
  | cons a as ih =>
    intro l2 h
    cases l2 with
    | nil => exact False.elim h
    | cons b bs =>
      simp only [List.length_cons]
      rw [ih bs h.2]

theorem imgsEq_of_get? : ∀ (l1 l2 : List Img), l1.length = l2.length →
    (∀ n a b, l1.get? n = some a → l2.get? n = some b → ImgEq a b) → ImgsEq l1 l2 := by
  intro l1
  induction l1 with
  | nil =>
    intro l2 hlen _
    cases l2 with
    | nil => trivial
    | cons b bs => simp at hlen
  | cons a as ih =>
    intro l2 hlen hp
    cases l2 with
    | nil => simp at hlen
    | cons b bs =>
      refine ⟨hp 0 a b rfl rfl, ?_⟩
      apply ih bs (by simpa using hlen)
      intro n x y hx hy
      exact hp (n + 1) x y (by simpa using hx) (by simpa using hy)

/-- The reconstruction only reads the levels extensionally: levelwise
equal pyramids reconstruct to equal results (including equal failure). -/
theorem laplacian_to_image_congr (fv : List ℚ) :
    ∀ (L1 L2 : List Img) (coeff : List ℚ), ImgsEq L1 L2 →
      OptImgEq (laplacian_to_image L1 fv coeff) (laplacian_to_image L2 fv coeff) := by
  intro L1
  induction L1 with
  | nil =>
    intro L2 coeff h
    cases L2 with
    | nil => trivial
    | cons b bs => exact False.elim h
  | cons a as ih =>
    intro L2 coeff h
    cases L2 with
    | nil => exact False.elim h
    | cons b bs =>
      obtain ⟨hab, hrest⟩ := h
      have hlen : as.length = bs.length := ImgsEq_length as bs hrest
      cases coeff with
      | nil =>
        have h1 : laplacian_to_image (a :: as) fv [] = none :=
          getGaussF_short (a :: as).length (a :: as) fv [] 0 (by simp) (by simp) (by omega)
        have h2 : laplacian_to_image (b :: bs) fv [] = none :=
          getGaussF_short (b :: bs).length (b :: bs) fv [] 0 (by simp) (by simp) (by omega)
        rw [h1, h2]
        trivial
      | cons c0 C =>
        show OptImgEq (getGaussF (a :: as).length (a :: as) fv (c0 :: C) 0)
          (getGaussF (b :: bs).length (b :: bs) fv (c0 :: C) 0)
        simp only [List.length_cons]
        rw [getGaussF_succ as.length (a :: as) fv (c0 :: C) 0,
          getGaussF_succ bs.length (b :: bs) fv (c0 :: C) 0]
        simp only [List.length_cons, List.get?_cons_zero]
        by_cases hbase : as.length = 0
        · rw [if_pos (by omega : 0 + 1 = as.length + 1),
            if_pos (by omega : 0 + 1 = bs.length + 1)]
          simp only [Option.some_bind, Option.map_some']
          exact scaleImg_congr c0 hab
        · rw [if_neg (by omega : ¬(0 + 1 = as.length + 1)),
            if_neg (by omega : ¬(0 + 1 = bs.length + 1)),
            if_pos (by omega : 0 < as.length + 1),
            if_pos (by omega : 0 < bs.length + 1)]
          simp only [Option.some_bind]
          have e1 : getGaussF as.length (a :: as) fv (c0 :: C) 1 =
              laplacian_to_image as fv C := by
            rw [getGaussF_fuel_agree as.length (a :: as) fv (c0 :: C) 1 (as.length + 1)
              (by simp only [List.length_cons]; omega)
              (by simp only [List.length_cons]; omega)]
            rw [getGaussF_cons a fv c0 as.length as C 0 (by omega)]
            rfl
          have e2 : getGaussF bs.length (b :: bs) fv (c0 :: C) 1 =
              laplacian_to_image bs fv C := by
            rw [getGaussF_fuel_agree bs.length (b :: bs) fv (c0 :: C) 1 (bs.length + 1)
              (by simp only [List.length_cons]; omega)
              (by simp only [List.length_cons]; omega)]
            rw [getGaussF_cons b fv c0 bs.length bs C 0 (by omega)]
            rfl
          simp only [e1, e2]
          have hIH := ih bs C hrest
          rcases hA : laplacian_to_image as fv C with _ | g1 <;>
            rcases hB : laplacian_to_image bs fv C with _ | g2
          · simp only [Option.none_bind]
            trivial
          · rw [hA, hB] at hIH
            exact False.elim hIH
          · rw [hA, hB] at hIH
            exact False.elim hIH
          · rw [hA, hB] at hIH
            simp only [Option.some_bind]
            by_cases hcond : (scaleImg c0 a).h = (expand g1 fv).h ∧
                (scaleImg c0 a).w = (expand g1 fv).w
            · have hcond2 : (scaleImg c0 b).h = (expand g2 fv).h ∧
                  (scaleImg c0 b).w = (expand g2 fv).w := by
                constructor
                · show b.h = g2.h * 2
                  rw [← hab.1, ← hIH.1]
                  exact hcond.1
                · show b.w = g2.w * 2
                  rw [← hab.2.1, ← hIH.2.1]
                  exact hcond.2
              rw [npAdd_some _ _ hcond.1 hcond.2, npAdd_some _ _ hcond2.1 hcond2.2]
              refine ⟨hab.1, hab.2.1, ?_⟩
              intro i hi j hj
              show c0 * a.px i j + (expand g1 fv).px i j =
                c0 * b.px i j + (expand g2 fv).px i j
              rw [hab.2.2 i hi j hj]
              have hiE : i < (expand g1 fv).h := by rw [← hcond.1]; exact hi
              have hjE : j < (expand g1 fv).w := by rw [← hcond.2]; exact hj
              rw [(expand_congr fv hIH).2.2 i hiE j hjE]
            · have hcond2 : ¬((scaleImg c0 b).h = (expand g2 fv).h ∧
                  (scaleImg c0 b).w = (expand g2 fv).w) := by
                intro hcb
                apply hcond
                constructor
                · show a.h = g1.h * 2
                  rw [hab.1, hIH.1]
                  exact hcb.1
                · show a.w = g1.w * 2
                  rw [hab.2.1, hIH.2.1]
                  exact hcb.2
              rw [npAdd_none _ _ hcond, npAdd_none _ _ hcond2]
              trivial

/-! ### Helpers for the blending pipeline -/

theorem get?_replicate_of_lt (q : ℚ) : ∀ (n m : ℕ), m < n →
    (List.replicate n q).get? m = some q := by
  intro n
  induction n with
  | zero => intro m h; omega
  | succ k ih =>
    intro m h
    cases m with
    | zero => rfl
    | succ m2 => simpa [List.replicate_succ] using ih m2 (by omega)

theorem seqOpt_imgsEq : ∀ (L : List Img) (f : ℕ → Option Img),
    (∀ i x, L.get? i = some x → ∃ y, f i = some y ∧ ImgEq y x) →
    ∃ out, seqOpt ((List.range L.length).map f) = some out ∧ ImgsEq out L := by
  intro L
  induction L with
  | nil => intro f _; exact ⟨[], rfl, trivial⟩
  | cons a t ih =>
    intro f hp
    obtain ⟨y0, hy0, hy0eq⟩ := hp 0 a rfl
    obtain ⟨out2, hout2, hout2eq⟩ :=
      ih (fun i => f (i + 1)) (fun i x hx => hp (i + 1) x (by simpa using hx))
    refine ⟨y0 :: out2, ?_, hy0eq, hout2eq⟩
    rw [List.length_cons, List.range_succ_eq_map]
    simp only [List.map_cons, List.map_map]
    rw [seqOpt, hy0]
    have hcomp : (List.range t.length).map (f ∘ Nat.succ) =
        (List.range t.length).map (fun i => f (i + 1)) := by
      simp [Function.comp]
    rw [hcomp, hout2]
    rfl

/-- One blended level under a constant mask level: the source expression
`gm[i]*l1[i] + ((-1*gm[i]) + 1)*l2[i]` evaluates pointwise to
`mval*a + (1-mval)*b`. -/
theorem blendAt_const {gm l1 l2 : List Img} {i : ℕ} {g a b : Img} (mval : ℚ)
    (hg : gm.get? i = some g) (ha : l1.get? i = some a) (hb : l2.get? i = some b)
    (hdim1 : g.h = a.h) (hdim2 : g.w = a.w) (hdim3 : g.h = b.h) (hdim4 : g.w = b.w)
    (hconst : ConstOn g mval) :
    ∃ y, blendAt gm l1 l2 i = some y ∧ y.h = g.h ∧ y.w = g.w ∧
      ∀ i2, i2 < g.h → ∀ j2, j2 < g.w →
        y.px i2 j2 = mval * a.px i2 j2 + ((-1) * mval + 1) * b.px i2 j2 := by
  rw [blendAt, hg, ha, hb]
  simp only [Option.some_bind]
  rw [npMul_some g a hdim1 hdim2]
  simp only [Option.some_bind]
  rw [npMul_some (addConstImg (scaleImg (-1) g) 1) b hdim3 hdim4]
  simp only [Option.some_bind]
  have hAdd := npAdd_some
    (⟨g.h, g.w, fun i j => g.px i j * a.px i j⟩ : Img)
    (⟨(addConstImg (scaleImg (-1) g) 1).h, (addConstImg (scaleImg (-1) g) 1).w,
      fun i j => (addConstImg (scaleImg (-1) g) 1).px i j * b.px i j⟩ : Img)
    rfl rfl
  rw [hAdd]
  refine ⟨_, rfl, rfl, rfl, ?_⟩
  intro i2 hi2 j2 hj2
  show g.px i2 j2 * a.px i2 j2 + ((-1) * g.px i2 j2 + 1) * b.px i2 j2 = _
  rw [hconst i2 hi2 j2 hj2]

/-- Folding `build_laplacian_pyramid` through a known `lapSubs` result. -/
theorem build_laplacian_eq (im : Img) (maxL fs : ℕ) (lap : List Img)
    (h : lapSubs (get_filer_row fs)
      (im :: gaussLevels (get_filer_row fs) (maxL - 1) im) = some lap) :
    build_laplacian_pyramid im maxL fs = some (lap, get_filer_row fs) := by
  show (lapSubs (get_filer_row fs)
    (im :: gaussLevels (get_filer_row fs) (maxL - 1) im)).map
      (fun l => (l, get_filer_row fs)) = some (lap, get_filer_row fs)
  rw [h]
  rfl

/-- Reconstructing a blended pyramid that is levelwise equal to a pyramid
with a known exact round trip, then clipping, returns the selected image
(whose samples lie in `[0, 1]`). -/
theorem reconstruct_clip (fv : List ℚ) (outLap lapSel : List Img) (imSel : Img)
    (maxL : ℕ) (hImgs : ImgsEq outLap lapSel) (hlen : lapSel.length ≤ maxL)
    (hRT : ∃ out, laplacian_to_image lapSel fv (List.replicate lapSel.length 1) =
      some out ∧ ImgEq out imSel)
    (hrS : ∀ i, i < imSel.h → ∀ j, j < imSel.w →
      0 ≤ imSel.px i j ∧ imSel.px i j ≤ 1) :
    ∃ o, (laplacian_to_image outLap fv (List.replicate maxL 1)).map clipImg =
      some o ∧ ImgEq o imSel := by
  obtain ⟨out, hout, houteq⟩ := hRT
  have hlen2 : outLap.length = lapSel.length := ImgsEq_length _ _ hImgs
  have hcoeff : laplacian_to_image outLap fv (List.replicate maxL 1) =
      laplacian_to_image outLap fv (List.replicate outLap.length 1) := by
    apply getGaussF_coeff_agree
    intro m hm
    rw [get?_replicate_of_lt 1 maxL m (by omega), get?_replicate_of_lt 1 outLap.length m hm]
  have hcong := laplacian_to_image_congr fv outLap lapSel
    (List.replicate outLap.length 1) hImgs
  rw [hlen2, hout] at hcong
  rcases hO : laplacian_to_image outLap fv (List.replicate lapSel.length 1) with _ | o
  · rw [hO] at hcong
    exact False.elim hcong
  · rw [hO] at hcong
    refine ⟨clipImg o, ?_, ?_⟩
    · rw [hcoeff, hlen2, hO]
      rfl
    · have ho_im : ImgEq o imSel := ImgEq.trans' hcong houteq
      refine ⟨ho_im.1, ho_im.2.1, ?_⟩
      intro i hi j hj
      show max 0 (min 1 (o.px i j)) = imSel.px i j
      rw [ho_im.2.2 i hi j hj]
      have hbnd := hrS i (by rw [← ho_im.1]; exact hi) j (by rw [← ho_im.2.1]; exact hj)
      rw [min_eq_right hbnd.2, max_eq_right hbnd.1]

/-! ### Helpers for the stretched rendering -/

theorem foldl_min_const (c : ℚ) : ∀ (l : List ℚ), (∀ x ∈ l, x = c) →
    l.foldl min c = c := by
  intro l
  induction l with
  | nil => intro _; rfl
  | cons a t ih =>
    intro h
    have ha : a = c := h a (List.mem_cons_self a t)
    rw [List.foldl_cons, ha, min_self]
    exact ih fun x hx => h x (List.mem_cons_of_mem a hx)

theorem foldl_max_const (c : ℚ) : ∀ (l : List ℚ), (∀ x ∈ l, x = c) →
    l.foldl max c = c := by
  intro l
  induction l with
  | nil => intro _; rfl
  | cons a t ih =>
    intro h
    have ha : a = c := h a (List.mem_cons_self a t)
    rw [List.foldl_cons, ha, max_self]
    exact ih fun x hx => h x (List.mem_cons_of_mem a hx)

theorem pxList_const (im : Img) (c : ℚ) (hc : ConstOn im c) :
    ∀ x ∈ pxList im, x = c := by
  intro x hx
  simp only [pxList, List.mem_flatMap, List.mem_map, List.mem_range] at hx
  obtain ⟨i, hi, j, hj, rfl⟩ := hx
  exact hc i hi j hj

/-! ### The claims -/

/-- Claim C7: for every odd `filterSize ≥ 1` the kernel built by
`_get_filer_row` has length exactly `filterSize` and entries summing to 1
(exactly, in ℚ, hence within any tolerance); `filterSize = 1` yields `[1]`. -/
theorem C7_kernel_length_sum (fs : ℕ) (hodd : fs % 2 = 1) :
    (get_filer_row fs).length = fs ∧ (get_filer_row fs).sum = 1 ∧
      get_filer_row 1 = [1] := by
  refine ⟨get_filer_row_length fs (by omega), get_filer_row_sum fs, ?_⟩
  simp [get_filer_row, filerRowRaw]

/-- Witness for C7 at `filterSize = 5`. -/
theorem C7_kernel_length_sum_witness :
    (get_filer_row 5).length = 5 ∧ (get_filer_row 5).sum = 1 ∧
      get_filer_row 1 = [1] :=
  C7_kernel_length_sum 5 (by norm_num)

/-- Claim C3 (counterexample): `_get_filer_row` performs no validation at
all; with `filterSize = 2` it returns the normalized kernel `[1/2, 1/2]`
of length 2 instead of raising `InvalidParameter`. -/
theorem C3_counterexample :
    get_filer_row 2 = [1/2, 1/2] ∧ (get_filer_row 2).length = 2 := by
  constructor
  · simp [get_filer_row, filerRowRaw, conv1dFull, List.range_succ, Finset.sum_range_succ]
    norm_num
  · exact get_filer_row_length 2 (by norm_num)

/-- Claim C3 (amended): the source has no error path; for every
`filterSize ≥ 1` — even values included — `_get_filer_row` returns a
normalized kernel of length `filterSize`. -/
theorem C3_amended (fs : ℕ) (h : 1 ≤ fs) :
    (get_filer_row fs).length = fs ∧ (get_filer_row fs).sum = 1 :=
  ⟨get_filer_row_length fs h, get_filer_row_sum fs⟩

/-- Witness for the amended C3 at the even size `filterSize = 2`. -/
theorem C3_amended_witness :
    (get_filer_row 2).length = 2 ∧ (get_filer_row 2).sum = 1 :=
  C3_amended 2 (by norm_num)

/-- Claim C4: for `maxLevels ≥ 1` the gaussian pyramid has length in
`[1, maxLevels]`, each level `i+1` has dimensions
`(⌈h_i/2⌉, ⌈w_i/2⌉) = ((h_i+1)/2, (w_i+1)/2)`, a level is only reduced
further when both of its dimensions exceed 16, and the concrete 32×32
scenario with `maxLevels = 3` yields exactly the two levels 32×32 and
16×16. -/
theorem C4_gaussian_invariants (im : Img) (maxL fs : ℕ) (hmax : 1 ≤ maxL) :
    1 ≤ (build_gaussian_pyramid im maxL fs).1.length ∧
    (build_gaussian_pyramid im maxL fs).1.length ≤ maxL ∧
    (∀ n, n + 1 < (build_gaussian_pyramid im maxL fs).1.length →
      ((build_gaussian_pyramid im maxL fs).1.getD (n + 1) Img0).h =
        (((build_gaussian_pyramid im maxL fs).1.getD n Img0).h + 1) / 2 ∧
      ((build_gaussian_pyramid im maxL fs).1.getD (n + 1) Img0).w =
        (((build_gaussian_pyramid im maxL fs).1.getD n Img0).w + 1) / 2 ∧
      MIN_IMG_SIZE < ((build_gaussian_pyramid im maxL fs).1.getD n Img0).h ∧
      MIN_IMG_SIZE < ((build_gaussian_pyramid im maxL fs).1.getD n Img0).w) ∧
    ((build_gaussian_pyramid (constImg 32 32 (1/2)) 3 3).1.length = 2 ∧
      dimsOf ((build_gaussian_pyramid (constImg 32 32 (1/2)) 3 3).1.getD 0 Img0) =
        (32, 32) ∧
      dimsOf ((build_gaussian_pyramid (constImg 32 32 (1/2)) 3 3).1.getD 1 Img0) =
        (16, 16)) := by
  refine ⟨?_, ?_, ?_, ?_⟩
  · show 1 ≤ (im :: gaussLevels (get_filer_row fs) (maxL - 1) im).length
    simp
  · show (im :: gaussLevels (get_filer_row fs) (maxL - 1) im).length ≤ maxL
    have := gaussLevels_length_le (get_filer_row fs) (maxL - 1) im
    simp only [List.length_cons]
    omega
  · intro n hn
    have hg := gaussChain_getD (get_filer_row fs) (maxL - 1) im n hn
    refine ⟨?_, ?_, hg.2.1, hg.2.2⟩
    · show ((im :: gaussLevels (get_filer_row fs) (maxL - 1) im).getD (n + 1) Img0).h = _
      rw [hg.1]
      rfl
    · show ((im :: gaussLevels (get_filer_row fs) (maxL - 1) im).getD (n + 1) Img0).w = _
      rw [hg.1]
      rfl
  · refine ⟨by decide, by decide, by decide⟩

/-- Witness for C4 at a 20×20 constant image with `maxLevels = 5`. -/
theorem C4_gaussian_invariants_witness :
    (build_gaussian_pyramid (constImg 20 20 0) 5 3).1.length ≤ 5 :=
  (C4_gaussian_invariants (constImg 20 20 0) 5 3 (by norm_num)).2.1

/-- Claim C10: `reduce` maps a constant image of value `c` to the constant
image of value `c` at the ceil-halved size (the normalized kernel and the
reflect boundary preserve constants), and consequently every level of the
gaussian pyramid of a constant image is constant with the same value. -/
theorem C10_reduce_constant (h w : ℕ) (c : ℚ) (fs maxL : ℕ) :
    ImgEq (reduce (constImg h w c) (get_filer_row fs))
      (constImg ((h + 1) / 2) ((w + 1) / 2) c) ∧
    ∀ lvl ∈ (build_gaussian_pyramid (constImg h w c) maxL fs).1, ConstOn lvl c := by
  have hconst : ConstOn (constImg h w c) c := fun _ _ _ _ => rfl
  have hsum := get_filer_row_sumRange fs
  constructor
  · refine ⟨rfl, rfl, ?_⟩
    intro i hi j hj
    exact reduce_constOn (get_filer_row fs) hsum hconst i hi j hj
  · intro lvl hlvl
    rcases List.mem_cons.mp hlvl with h1 | h1
    · rw [h1]; exact hconst
    · exact gaussLevels_constOn (get_filer_row fs) hsum c (maxL - 1)
        (constImg h w c) hconst lvl h1

/-- Witness for C10: reducing the constant 4×6 image of value 1/3 gives
value 1/3 at pixel (1,2) of the 2×3 result. -/
theorem C10_reduce_constant_witness :
    (reduce (constImg 4 6 (1/3)) (get_filer_row 3)).px 1 2 = 1/3 :=
  (C10_reduce_constant 4 6 (1/3) 3 2).1.2.2 1 (by decide) 2 (by decide)

/-- Claim C9: `_stretch_image` divides by `im.max() - im.min()` with no
guard on the denominator; on every (nonempty) constant image that divisor
is exactly 0, so the stretch divides by zero (in numpy, a `0/0` warning
and NaN output). -/
theorem C9_stretch_divzero (im : Img) (c : ℚ) (h1 : 1 ≤ im.h) (h2 : 1 ≤ im.w)
    (hc : ConstOn im c) :
    imgMax im - imgMin im = 0 ∧
    ∀ i j, (stretch_image im).px i j =
      (im.px i j - imgMin im) / (imgMax im - imgMin im) := by
  refine ⟨?_, fun _ _ => rfl⟩
  have hmem : ∀ x ∈ pxList im, x = c := pxList_const im c hc
  have h00 : im.px 0 0 = c := hc 0 (by omega) 0 (by omega)
  unfold imgMax imgMin
  rw [h00, foldl_max_const c _ hmem, foldl_min_const c _ hmem]
  ring

/-- Witness for C9 at the constant 3×3 image of value 1/4. -/
theorem C9_stretch_divzero_witness :
    imgMax (constImg 3 3 (1/4)) - imgMin (constImg 3 3 (1/4)) = 0 :=
  (C9_stretch_divzero (constImg 3 3 (1/4)) (1/4) (by decide) (by decide)
    (fun _ _ _ _ => rfl)).1

/-- Claim C1 (counterexample): `build_laplacian_pyramid` performs no
cropping; for a 17×17 input (odd dimensions at level 0, so
`expand(G[1])` is 18×18) the subtraction `G[0] - expand(G[1])` is a
numpy broadcasting error, so the build fails rather than cropping. -/
theorem C1_counterexample :
    (build_laplacian_pyramid (constImg 17 17 0) 2 1).isNone = true := by decide

/-- Claim C1 (amended): the source subtracts `expand(G[i+1])` from `G[i]`
directly, with no cropping.  When every gaussian level except possibly
the last has even height and width the shapes agree, each laplacian level
`i` equals `G[i] - expand(G[i+1])` pointwise, and the final level is the
last gaussian level unchanged; when an intermediate level has an odd
dimension the subtraction is a shape-mismatch error (counterexample). -/
theorem C1_amended (im : Img) (maxL fs : ℕ)
    (hev : chainEvenB (build_gaussian_pyramid im maxL fs).1 = true) :
    ∃ lap, build_laplacian_pyramid im maxL fs = some (lap, get_filer_row fs) ∧
      lap.length = (build_gaussian_pyramid im maxL fs).1.length ∧
      (∀ n, n + 1 < (build_gaussian_pyramid im maxL fs).1.length →
        ∀ i j, (lap.getD n Img0).px i j =
          ((build_gaussian_pyramid im maxL fs).1.getD n Img0).px i j -
          (expand ((build_gaussian_pyramid im maxL fs).1.getD (n + 1) Img0)
            (get_filer_row fs)).px i j) ∧
      lap.getD (lap.length - 1) Img0 =
        (build_gaussian_pyramid im maxL fs).1.getD
          ((build_gaussian_pyramid im maxL fs).1.length - 1) Img0 := by
  obtain ⟨lap, hlap⟩ := lapSubs_isSome (get_filer_row fs) (get_filer_row fs)
    (maxL - 1) im hev
  obtain ⟨hgetD, hlast⟩ := lapSubs_getD (get_filer_row fs) _ lap hlap
  have hlen := lapSubs_length (get_filer_row fs) _ lap hlap
  refine ⟨lap, build_laplacian_eq im maxL fs lap hlap, hlen, ?_, ?_⟩
  · intro n hn i j
    exact (hgetD n hn).2.2 i j
  · rw [hlen]
    exact hlast

/-- Witness for the amended C1: an 18×18 constant image (even dimensions)
with `maxLevels = 3` builds successfully. -/
theorem C1_amended_witness :
    (build_laplacian_pyramid (constImg 18 18 (1/2)) 3 3).isSome = true := by
  obtain ⟨lap, hl, -, -, -⟩ := C1_amended (constImg 18 18 (1/2)) 3 3 (by decide)
  rw [hl]
  rfl

/-- Claim C2: round trip — for an image whose gaussian levels (except
possibly the last) all have even dimensions, reconstructing the laplacian
pyramid with the all-ones coefficient vector returns the input image
exactly (hence within any tolerance). -/
theorem C2_round_trip (im : Img) (maxL fs : ℕ)
    (hev : chainEvenB (build_gaussian_pyramid im maxL fs).1 = true) :
    ∃ lap out, build_laplacian_pyramid im maxL fs = some (lap, get_filer_row fs) ∧
      laplacian_to_image lap (get_filer_row fs) (List.replicate lap.length 1) =
        some out ∧
      ImgEq out im := by
  obtain ⟨lap, hlap⟩ := lapSubs_isSome (get_filer_row fs) (get_filer_row fs)
    (maxL - 1) im hev
  obtain ⟨out, hout, houteq⟩ := roundTrip (get_filer_row fs)
    (gaussLevels (get_filer_row fs) (maxL - 1) im) im lap hlap
  exact ⟨lap, out, build_laplacian_eq im maxL fs lap hlap, hout, houteq⟩

/-- Witness for C2: the 18×18 constant image round-trips with
`maxLevels = 3`, `filterSize = 3`. -/
theorem C2_round_trip_witness :
    ∃ lap out,
      build_laplacian_pyramid (constImg 18 18 (1/2)) 3 3 =
        some (lap, get_filer_row 3) ∧
      laplacian_to_image lap (get_filer_row 3) (List.replicate lap.length 1) =
        some out ∧
      ImgEq out (constImg 18 18 (1/2)) :=
  C2_round_trip (constImg 18 18 (1/2)) 3 3 (by decide)

/-- Claim C5 (counterexample): `laplacian_to_image` accepts a coefficient
list strictly longer than the pyramid — a 1-level pyramid with 2
coefficients reconstructs successfully, with no DimensionMismatch. -/
theorem C5_counterexample :
    (laplacian_to_image [constImg 2 2 (1/2)] (get_filer_row 3) [1, 5]).isSome =
      true := by decide

/-- Claim C5 (amended): `laplacian_to_image` performs no length check.
For a nonempty pyramid, a coefficient list shorter than the pyramid hits
a python IndexError (`none`); coefficients beyond the pyramid length are
ignored (the result only depends on the first `len(lpyr)` entries), which
is exactly what lets `pyramid_blending` pass `[1] * max_levels`. -/
theorem C5_amended (lpyr : List Img) (fv coeff coeff2 : List ℚ)
    (h1 : 1 ≤ lpyr.length) (h2 : coeff.length < lpyr.length) :
    laplacian_to_image lpyr fv coeff = none ∧
    laplacian_to_image lpyr fv coeff2 =
      laplacian_to_image lpyr fv (coeff2.take lpyr.length) := by
  constructor
  · exact getGaussF_short lpyr.length lpyr fv coeff 0 (by omega) h2 (by omega)
  · apply getGaussF_coeff_agree
    intro m hm
    exact (List.get?_take hm).symm

/-- Witness for the amended C5 on a concrete 2-level pyramid. -/
theorem C5_amended_witness :
    laplacian_to_image [constImg 2 2 (1/2), constImg 1 1 0] (get_filer_row 3)
        [1] = none ∧
    laplacian_to_image [constImg 2 2 (1/2), constImg 1 1 0] (get_filer_row 3)
        [1, 1, 1] =
      laplacian_to_image [constImg 2 2 (1/2), constImg 1 1 0] (get_filer_row 3)
        ([1, 1, 1].take [constImg 2 2 (1/2), constImg 1 1 0].length) :=
  C5_amended [constImg 2 2 (1/2), constImg 1 1 0] (get_filer_row 3) [1] [1, 1, 1]
    (by decide) (by decide)

/-- Blending the levels of two laplacian pyramids under a constant mask
pyramid selects the first pyramid when the mask value is 1 and the second
when it is 0 (levelwise, extensionally). -/
theorem blend_levels_select (gm lap1 lap2 lapSel : List Img) (mval : ℚ)
    (hd1 : lap1.map dimsOf = gm.map dimsOf)
    (hd2 : lap2.map dimsOf = gm.map dimsOf)
    (hconstGM : ∀ g ∈ gm, ConstOn g mval)
    (hsel : (mval = 1 ∧ lapSel = lap1) ∨ (mval = 0 ∧ lapSel = lap2)) :
    ∃ outLap, seqOpt ((List.range lap1.length).map (blendAt gm lap1 lap2)) =
      some outLap ∧ ImgsEq outLap lapSel := by
  have hlen1 : lap1.length = gm.length := by
    have := congrArg List.length hd1
    simpa using this
  have hlen2 : lap2.length = gm.length := by
    have := congrArg List.length hd2
    simpa using this
  have hlenSel : lapSel.length = lap1.length := by
    rcases hsel with ⟨-, rfl⟩ | ⟨-, rfl⟩
    · rfl
    · omega
  have key : ∀ i x, lapSel.get? i = some x →
      ∃ y, blendAt gm lap1 lap2 i = some y ∧ ImgEq y x := by
    intro i x hx
    have hiSel : i < lapSel.length := by
      by_contra hcon
      push_neg at hcon
      rw [List.get?_eq_none.mpr hcon] at hx
      exact Option.noConfusion hx
    have hi1 : i < lap1.length := by omega
    have hi2 : i < lap2.length := by omega
    have hig : i < gm.length := by omega
    rcases hG : gm.get? i with _ | g
    · rw [List.get?_eq_none] at hG; omega
    rcases hA : lap1.get? i with _ | a
    · rw [List.get?_eq_none] at hA; omega
    rcases hB : lap2.get? i with _ | b
    · rw [List.get?_eq_none] at hB; omega
    have hda : dimsOf a = dimsOf g := by
      have hmap := congrArg (fun l => l.get? i) hd1
      simp only [List.get?_map, hA, hG, Option.map_some'] at hmap
      exact Option.some.inj hmap
    have hdb : dimsOf b = dimsOf g := by
      have hmap := congrArg (fun l => l.get? i) hd2
      simp only [List.get?_map, hB, hG, Option.map_some'] at hmap
      exact Option.some.inj hmap
    obtain ⟨y, hy, hyh, hyw, hypx⟩ := blendAt_const mval hG hA hB
      (congrArg Prod.fst hda).symm (congrArg Prod.snd hda).symm
      (congrArg Prod.fst hdb).symm (congrArg Prod.snd hdb).symm
      (hconstGM g (List.get?_mem hG))
    rcases hsel with ⟨hm, hsel1⟩ | ⟨hm, hsel2⟩
    · subst hsel1
      subst hm
      have hxa : x = a := Option.some.inj (hx.symm.trans hA)
      subst hxa
      refine ⟨y, hy, ?_, ?_, ?_⟩
      · rw [hyh]
        exact (congrArg Prod.fst hda).symm
      · rw [hyw]
        exact (congrArg Prod.snd hda).symm
      · intro i2 hi2 j2 hj2
        have hig2 : i2 < g.h := by rw [← hyh]; exact hi2
        have hjg2 : j2 < g.w := by rw [← hyw]; exact hj2
        rw [hypx i2 hig2 j2 hjg2]
        ring
    · subst hsel2
      subst hm
      have hxb : x = b := Option.some.inj (hx.symm.trans hB)
      subst hxb
      refine ⟨y, hy, ?_, ?_, ?_⟩
      · rw [hyh]
        exact (congrArg Prod.fst hdb).symm
      · rw [hyw]
        exact (congrArg Prod.snd hdb).symm
      · intro i2 hi2 j2 hj2
        have hig2 : i2 < g.h := by rw [← hyh]; exact hi2
        have hjg2 : j2 < g.w := by rw [← hyw]; exact hj2
        rw [hypx i2 hig2 j2 hjg2]
        ring
  obtain ⟨outLap, hseq, hImgs⟩ := seqOpt_imgsEq lapSel (blendAt gm lap1 lap2) key
  rw [hlenSel] at hseq
  exact ⟨outLap, hseq, hImgs⟩

/-- Claim C6: mask extremes.  For same-shaped valid images (samples in
`[0, 1]`, dimensions compatible with the pyramid construction, i.e. the
non-final gaussian levels have even dimensions, and `maxLevels ≥ 1`):
blending with the all-ones mask returns `im1` exactly, and blending with
the all-zeros mask returns `im2` exactly (hence within any tolerance). -/
theorem C6_mask_extremes (im1 im2 : Img) (maxL fsI fsM : ℕ)
    (hh : im1.h = im2.h) (hw : im1.w = im2.w) (hmax : 1 ≤ maxL)
    (hev : chainEvenB (build_gaussian_pyramid im1 maxL fsI).1 = true)
    (hr1 : ∀ i, i < im1.h → ∀ j, j < im1.w → 0 ≤ im1.px i j ∧ im1.px i j ≤ 1)
    (hr2 : ∀ i, i < im2.h → ∀ j, j < im2.w → 0 ≤ im2.px i j ∧ im2.px i j ≤ 1) :
    (∃ out, pyramid_blending im1 im2 (constImg im1.h im1.w 1) maxL fsI fsM =
      some out ∧ ImgEq out im1) ∧
    (∃ out, pyramid_blending im1 im2 (constImg im1.h im1.w 0) maxL fsI fsM =
      some out ∧ ImgEq out im2) := by
  obtain ⟨lap1, hlap1⟩ := lapSubs_isSome (get_filer_row fsI) (get_filer_row fsI)
    (maxL - 1) im1 hev
  have hmd12 : (im1 :: gaussLevels (get_filer_row fsI) (maxL - 1) im1).map dimsOf =
      (im2 :: gaussLevels (get_filer_row fsI) (maxL - 1) im2).map dimsOf := by
    simp only [List.map_cons]
    rw [gaussLevels_dims_par (get_filer_row fsI) (get_filer_row fsI) (maxL - 1)
      im1 im2 hh hw]
    congr 1
    simp [dimsOf, hh, hw]
  have hevG2 : chainEvenB
      (im2 :: gaussLevels (get_filer_row fsI) (maxL - 1) im2) = true := by
    rw [← chainEvenB_dims _ _ hmd12]
    exact hev
  obtain ⟨lap2, hlap2⟩ := lapSubs_isSome (get_filer_row fsI) (get_filer_row fsI)
    (maxL - 1) im2 hevG2
  have hbl1 := build_laplacian_eq im1 maxL fsI lap1 hlap1
  have hbl2 := build_laplacian_eq im2 maxL fsI lap2 hlap2
  have hlapd1 := lapSubs_dims (get_filer_row fsI) _ lap1 hlap1
  have hlapd2 := lapSubs_dims (get_filer_row fsI) _ lap2 hlap2
  have hRT1 := roundTrip (get_filer_row fsI)
    (gaussLevels (get_filer_row fsI) (maxL - 1) im1) im1 lap1 hlap1
  have hRT2 := roundTrip (get_filer_row fsI)
    (gaussLevels (get_filer_row fsI) (maxL - 1) im2) im2 lap2 hlap2
  have hlen1 : lap1.length ≤ maxL := by
    rw [lapSubs_length (get_filer_row fsI) _ lap1 hlap1]
    have := gaussLevels_length_le (get_filer_row fsI) (maxL - 1) im1
    simp only [List.length_cons]
    omega
  have hlen2 : lap2.length ≤ maxL := by
    rw [lapSubs_length (get_filer_row fsI) _ lap2 hlap2]
    have := gaussLevels_length_le (get_filer_row fsI) (maxL - 1) im2
    simp only [List.length_cons]
    omega
  constructor
  · -- all-ones mask selects im1
    have hmdM : (im1 :: gaussLevels (get_filer_row fsI) (maxL - 1) im1).map dimsOf =
        ((build_gaussian_pyramid (constImg im1.h im1.w 1) maxL fsM).1).map dimsOf := by
      show _ = ((constImg im1.h im1.w 1) ::
        gaussLevels (get_filer_row fsM) (maxL - 1) (constImg im1.h im1.w 1)).map dimsOf
      simp only [List.map_cons]
      rw [gaussLevels_dims_par (get_filer_row fsI) (get_filer_row fsM) (maxL - 1)
        im1 (constImg im1.h im1.w 1) rfl rfl]
      rfl
    have hGMconst : ∀ g ∈ (build_gaussian_pyramid (constImg im1.h im1.w 1) maxL fsM).1,
        ConstOn g 1 := by
      intro g hg
      rcases List.mem_cons.mp hg with h1 | h1
      · rw [h1]; exact fun _ _ _ _ => rfl
      · exact gaussLevels_constOn (get_filer_row fsM) (get_filer_row_sumRange fsM) 1
          (maxL - 1) (constImg im1.h im1.w 1) (fun _ _ _ _ => rfl) g h1
    obtain ⟨outLap, hseq, hImgs⟩ := blend_levels_select
      (build_gaussian_pyramid (constImg im1.h im1.w 1) maxL fsM).1 lap1 lap2 lap1 1
      (hlapd1.trans hmdM) (hlapd2.trans (hmd12.symm.trans hmdM)) hGMconst
      (Or.inl ⟨rfl, rfl⟩)
    obtain ⟨o, ho, hoeq⟩ := reconstruct_clip (get_filer_row fsI) outLap lap1 im1
      maxL hImgs hlen1 hRT1 hr1
    refine ⟨o, ?_, hoeq⟩
    unfold pyramid_blending
    rw [hbl1]
    simp only [Option.some_bind]
    rw [hbl2]
    simp only [Option.some_bind]
    rw [hseq]
    simp only [Option.some_bind]
    exact ho
  · -- all-zeros mask selects im2
    have hmdM : (im1 :: gaussLevels (get_filer_row fsI) (maxL - 1) im1).map dimsOf =
        ((build_gaussian_pyramid (constImg im1.h im1.w 0) maxL fsM).1).map dimsOf := by
      show _ = ((constImg im1.h im1.w 0) ::
        gaussLevels (get_filer_row fsM) (maxL - 1) (constImg im1.h im1.w 0)).map dimsOf
      simp only [List.map_cons]
      rw [gaussLevels_dims_par (get_filer_row fsI) (get_filer_row fsM) (maxL - 1)
        im1 (constImg im1.h im1.w 0) rfl rfl]
      rfl
    have hGMconst : ∀ g ∈ (build_gaussian_pyramid (constImg im1.h im1.w 0) maxL fsM).1,
        ConstOn g 0 := by
      intro g hg
      rcases List.mem_cons.mp hg with h1 | h1
      · rw [h1]; exact fun _ _ _ _ => rfl
      · exact gaussLevels_constOn (get_filer_row fsM) (get_filer_row_sumRange fsM) 0
          (maxL - 1) (constImg im1.h im1.w 0) (fun _ _ _ _ => rfl) g h1
    obtain ⟨outLap, hseq, hImgs⟩ := blend_levels_select
      (build_gaussian_pyramid (constImg im1.h im1.w 0) maxL fsM).1 lap1 lap2 lap2 0
      (hlapd1.trans hmdM) (hlapd2.trans (hmd12.symm.trans hmdM)) hGMconst
      (Or.inr ⟨rfl, rfl⟩)
    obtain ⟨o, ho, hoeq⟩ := reconstruct_clip (get_filer_row fsI) outLap lap2 im2
      maxL hImgs hlen2 hRT2 hr2
    refine ⟨o, ?_, hoeq⟩
    unfold pyramid_blending
    rw [hbl1]
    simp only [Option.some_bind]
    rw [hbl2]
    simp only [Option.some_bind]
    rw [hseq]
    simp only [Option.some_bind]
    exact ho

/-- Witness for C6 on concrete 2×2 images with values in `[0, 1]`. -/
theorem C6_mask_extremes_witness :
    (∃ out, pyramid_blending (constImg 2 2 (1/2)) (constImg 2 2 (1/4))
      (constImg (constImg 2 2 (1/2)).h (constImg 2 2 (1/2)).w 1) 1 3 3 =
        some out ∧ ImgEq out (constImg 2 2 (1/2))) ∧
    (∃ out, pyramid_blending (constImg 2 2 (1/2)) (constImg 2 2 (1/4))
      (constImg (constImg 2 2 (1/2)).h (constImg 2 2 (1/2)).w 0) 1 3 3 =
        some out ∧ ImgEq out (constImg 2 2 (1/4))) :=
  C6_mask_extremes (constImg 2 2 (1/2)) (constImg 2 2 (1/4)) 1 3 3 rfl rfl
    (by norm_num) (by decide)
    (fun _ _ _ _ => by norm_num [constImg])
    (fun _ _ _ _ => by norm_num [constImg])

end Sol3
